import Mathlib

/-!
Shallow embedding of `src/matcher.py` (a listing-to-product matching engine).

Modelling conventions:
* Python strings are modelled as `List Char`; `None`-able strings as
  `Option (List Char)`.  The character model is the ASCII fragment relevant to
  the catalog/listing data: `str.lower` is modelled character-wise by
  `lowerChar` (lower-casing `'A'..'Z'`), and the regex word class `\w` by
  ASCII alphanumerics plus underscore.
* Python dicts keyed by strings are modelled as association lists; only the
  per-key values and key membership of `self.matches` are relied on by the
  theorems below (the source runs on Python 2, whose dict key iteration order
  is implementation defined).
* The compiled pattern `re.compile(r'(^|\b)(model)($|\b)')` of
  `Product.__init__` is modelled by `whole_model_search`, a matcher for the
  pattern alternation start-of-string-or-word-boundary, then the model's
  characters interpreted as regex atoms (`'.'` is the any-character wildcard,
  every other character a literal), then end-of-string-or-word-boundary.
  Models containing the remaining regex metacharacters
  (`^ $ * + ? ( ) [ ] { } | \`) are outside the scope of this embedding and
  are excluded by hypothesis where a theorem quantifies over models; `$` is
  modelled faithfully as matching at end of string or just before a trailing
  newline, and `'.'` as matching every character except newline.
* `bisect.bisect_left` is modelled with an explicit fuel argument bounding the
  number of loop iterations; `fuel = hi - lo` iterations always suffice since
  every iteration strictly shrinks `hi - lo`, and `bisect_left` passes the
  list length as fuel.
* Python's `list.sort` (stable, ascending by `__lt__`) is modelled by a stable
  insertion sort: a stable ascending sort is unique as a function, so this is
  observationally the sort the source performs.
-/

namespace Matcher

/-- Embeds `normalize` from `matcher.py` on non-`None` strings:
`s.lower()`, character-wise. -/
def lowerChar (c : Char) : Char :=
  if 65 ≤ c.toNat ∧ c.toNat ≤ 90 then Char.ofNat (c.toNat + 32) else c

/-- Character-wise lower-casing of a whole string. -/
def normalizeStr (s : List Char) : List Char := s.map lowerChar

/-- Embeds `normalize(s)` from `matcher.py`: `None` is returned unchanged,
any other string is lower-cased. -/
def normalize : Option (List Char) → Option (List Char)
  | none => none
  | some s => some (normalizeStr s)

/-- Python string `<` (lexicographic by code point), as used by
`Manufacturer.__lt__` and hence by `list.sort` and `bisect_left`. -/
def ltStr : List Char → List Char → Bool
  | _, [] => false
  | [], _ :: _ => true
  | a :: as, b :: bs =>
    if a < b then true
    else if b < a then false
    else ltStr as bs

/-- Python `needle == hay[:len(needle)]`-style check used to define
substring containment. -/
def startsWith : List Char → List Char → Bool
  | [], _ => true
  | _ :: _, [] => false
  | a :: as, b :: bs => a = b && startsWith as bs

/-- Python's `needle in hay` substring containment (used for manufacturer
and family containment checks). -/
def isSubstr : List Char → List Char → Bool
  | needle, [] => startsWith needle []
  | needle, c :: rest => startsWith needle (c :: rest) || isSubstr needle rest

/-- Regex word character `\w` (ASCII fragment): alphanumeric or underscore. -/
def isWordChar (c : Char) : Bool := c.isAlphanum || c = '_'

/-- Word boundary `\b` at the position between `prev` (the character to the
left, if any) and `rest` (the remaining input): exactly one side is a word
character. -/
def isBoundary (prev : Option Char) (rest : List Char) : Bool :=
  let wl := match prev with
    | none => false
    | some c => isWordChar c
  let wr := match rest with
    | [] => false
    | c :: _ => isWordChar c
  wl != wr

/-- Matches the model's characters (as regex atoms: `'.'` is the wildcard
matching any character except newline, anything else a literal) against the
input, then requires `($|\b)`: end of string, the position just before a
trailing newline (Python `$` without `re.MULTILINE`), or a word boundary —
tracking the previous character for the boundary test. -/
def matchTail : List Char → Option Char → List Char → Bool
  | [], prev, rest => rest.isEmpty || rest = ['\n'] || isBoundary prev rest
  | _ :: _, _, [] => false
  | a :: as, _, c :: cs => (a = '.' && !(c = '\n') || a = c) && matchTail as (some c) cs

/-- Tries the whole pattern `(^|\b)(model)($|\b)` at one position: the
leading alternation (`prev = none` is start of string), then `matchTail`. -/
def matchHere (model : List Char) (prev : Option Char) (rest : List Char) : Bool :=
  (prev.isNone || isBoundary prev rest) && matchTail model prev rest

/-- Scans every position of the input left to right, as `re.search` does
(the empty-rest position is the final one tried). -/
def searchFrom (model : List Char) : Option Char → List Char → Bool
  | prev, [] => matchHere model prev []
  | prev, c :: cs => matchHere model prev (c :: cs) || searchFrom model (some c) cs

/-- Embeds `product.whole_model_re.search(title) is not None` from
`matcher.py`, for the compiled pattern `(^|\b)({model})($|\b)`. -/
def whole_model_search (model title : List Char) : Bool :=
  searchFrom model none title

/-- Modelled from the spec: literal matching of the model's characters
(no wildcard), then end-of-string-or-word-boundary. -/
def litTail : List Char → Option Char → List Char → Bool
  | [], prev, rest => rest.isEmpty || isBoundary prev rest
  | _ :: _, _, [] => false
  | a :: as, _, c :: cs => (a = c) && litTail as (some c) cs

/-- Modelled from the spec: literal whole pattern at one position. -/
def litHere (model : List Char) (prev : Option Char) (rest : List Char) : Bool :=
  (prev.isNone || isBoundary prev rest) && litTail model prev rest

/-- Modelled from the spec: literal scan over all positions. -/
def litSearchFrom (model : List Char) : Option Char → List Char → Bool
  | prev, [] => litHere model prev []
  | prev, c :: cs => litHere model prev (c :: cs) || litSearchFrom model (some c) cs

/-- Modelled from the spec: "its `model` occurs in the normalized listing
title as a whole token — bounded by start-of-string/word-boundary on both
sides".  The model is taken literally. -/
def wholeTokenOccurs (model title : List Char) : Bool :=
  litSearchFrom model none title

/-- Characters the regex engine treats specially; a model containing none of
these compiles to a literal whole-token pattern. -/
def regexSpecialChar (c : Char) : Bool :=
  c = '.' || c = '^' || c = '$' || c = '*' || c = '+' || c = '?' ||
  c = '(' || c = ')' || c = '[' || c = ']' || c = Char.ofNat 123 ||
  c = Char.ofNat 125 || c = '|' || c = '\\'

/-- Embeds the `Product` class: all three fields are normalized by
`__init__` (`family` may be `None`). -/
structure Product where
  name : List Char
  family : Option (List Char)
  model : List Char
deriving DecidableEq, Repr

/-- Embeds `Product.__init__(name, family, model)`. -/
def Product.make (name : List Char) (family : Option (List Char)) (model : List Char) : Product :=
  { name := normalizeStr name, family := normalize family, model := normalizeStr model }

/-- Embeds the `Family` class. -/
structure Family where
  name : List Char
  products : List Product
deriving DecidableEq, Repr

/-- Embeds `Family.__init__(name)`. -/
def Family.make (name : List Char) : Family :=
  { name := normalizeStr name, products := [] }

/-- Embeds `Family.add_product`. -/
def Family.add_product (f : Family) (p : Product) : Family :=
  { f with products := f.products ++ [p] }

/-- Embeds the `Manufacturer` class. -/
structure Manufacturer where
  name : List Char
  products : List Product
  families : List Family
  orphans_products : List Product
deriving DecidableEq, Repr

/-- Embeds `Manufacturer.__init__(name)`. -/
def Manufacturer.make (name : List Char) : Manufacturer :=
  { name := normalizeStr name, products := [], families := [], orphans_products := [] }

/-- Default value handed to `List.getD` when indexing the manufacturer list
(never reached at in-bounds indices). -/
def defaultManufacturer : Manufacturer :=
  { name := [], products := [], families := [], orphans_products := [] }

/-- The linear scan of `Manufacturer.add_product` over `self.families`:
append the product to the family with the given (already normalized) name,
or append a freshly created family holding it at the end. -/
def addToFamilies : List Family → List Char → Product → List Family
  | [], nfn, p => [Family.add_product (Family.make nfn) p]
  | f :: fs, nfn, p =>
    if f.name = nfn then Family.add_product f p :: fs
    else f :: addToFamilies fs nfn p

/-- Embeds `Manufacturer.add_product`: the product is appended to
`self.products`; a product without family goes to `self.orphans_products`,
otherwise to its (found-or-created) family. -/
def Manufacturer.add_product (m : Manufacturer) (p : Product) : Manufacturer :=
  let m1 := { m with products := m.products ++ [p] }
  match p.family with
  | none => { m1 with orphans_products := m1.orphans_products ++ [p] }
  | some fam => { m1 with families := addToFamilies m1.families (normalizeStr fam) p }

/-- One line of the products file: a JSON object whose fields may be
absent.  `manufacturer`, `product_name` and `model` are accessed with
`product_json[...]` (raising `KeyError` when absent), `family` is guarded
by `'family' in product_json`. -/
structure RecordJson where
  manufacturer : Option (List Char)
  product_name : Option (List Char)
  family : Option (List Char)
  model : Option (List Char)
deriving DecidableEq, Repr

/-- The linear scan of `prepare_products_data` over `self.manufacturers`:
add the product to the manufacturer with the given (already normalized)
name, or append a freshly created one at the end. -/
def addToManufacturers : List Manufacturer → List Char → Product → List Manufacturer
  | [], nm, p => [Manufacturer.add_product (Manufacturer.make nm) p]
  | m :: rest, nm, p =>
    if m.name = nm then Manufacturer.add_product m p :: rest
    else m :: addToManufacturers rest nm p

/-- Processing of one product record by `prepare_products_data`: a missing
required field (`manufacturer`, `product_name`, `model`) raises `KeyError`,
modelled as `none`, which aborts the whole construction. -/
def addRecord (mans : List Manufacturer) (r : RecordJson) : Option (List Manufacturer) :=
  match r.manufacturer, r.product_name, r.model with
  | some rm, some rn, some rmodel =>
    let nm := normalizeStr rm
    some (addToManufacturers mans nm (Product.make rn r.family rmodel))
  | _, _, _ => none

/-- Stable insertion into an ascending list (goes after equal names), the
building block of the stable ascending sort `list.sort` performs. -/
def insertSorted (m : Manufacturer) : List Manufacturer → List Manufacturer
  | [] => [m]
  | x :: xs => if ltStr m.name x.name then m :: x :: xs else x :: insertSorted m xs

/-- Embeds `self.manufacturers.sort()`: stable ascending sort by name. -/
def sortManufacturers : List Manufacturer → List Manufacturer
  | [] => []
  | x :: xs => insertSorted x (sortManufacturers xs)

/-- Embeds `Matcher.prepare_products_data`: fold the records through
`addRecord` (any missing required field fails the whole construction),
then sort the manufacturer list by name. -/
def prepare_products_data (records : List RecordJson) : Option (List Manufacturer) :=
  (records.foldlM addRecord []).map sortManufacturers

/-- One line of the listings file.  `payload` stands for the passthrough
fields the engine does not interpret. -/
structure Listing where
  manufacturer : List Char
  title : List Char
  payload : Nat
deriving DecidableEq, Repr

/-- The accumulated `self.matches` dict: product name to its listings, as
an association list. -/
abbrev Matches := List (List Char × List Listing)

/-- Dict lookup `self.matches[k]` (with key-presence check). -/
def lookupMatches : Matches → List Char → Option (List Listing)
  | [], _ => none
  | (k, v) :: rest, key => if k = key then some v else lookupMatches rest key

/-- Embeds the recording step of `find_product_and_add_to_result`:
`self.matches[name] = [listing]` on first use, else
`self.matches[name].append(listing)`. -/
def recordMatch : Matches → List Char → Listing → Matches
  | [], k, l => [(k, [l])]
  | (k1, v) :: rest, k, l =>
    if k1 = k then (k1, v ++ [l]) :: rest
    else (k1, v) :: recordMatch rest k l

/-- The product-selection loop of `find_product_and_add_to_result`, as a
pure function: the first product whose compiled whole-model pattern matches
the normalized title. -/
def find_product : List Product → List Char → Option Product
  | [], _ => none
  | p :: ps, t => if whole_model_search p.model t then some p else find_product ps t

/-- Embeds `Matcher.find_product_and_add_to_result(products, listing,
normalized_listing_title)` acting on the `self.matches` state: returns the
new state and the boolean result. -/
def find_product_and_add_to_result :
    List Product → Listing → List Char → Matches → Matches × Bool
  | [], _, _, ms => (ms, false)
  | p :: ps, l, t, ms =>
    if whole_model_search p.model t then (recordMatch ms p.name l, true)
    else find_product_and_add_to_result ps l t ms

/-- The `for family in manufacturer.families` loop of `match_listings`:
a family whose name is contained in the title hands its products to
`find_product_and_add_to_result`; success breaks out of the loop. -/
def families_step : List Family → Listing → List Char → Matches → Matches × Bool
  | [], _, _, ms => (ms, false)
  | f :: fs, l, t, ms =>
    if isSubstr f.name t then
      let r := find_product_and_add_to_result f.products l t ms
      if r.2 then (r.1, true) else families_step fs l t r.1
    else families_step fs l t ms

/-- The family-then-orphans part of `match_listings` for one resolved
manufacturer (the `for ... else` construct: the orphan list is tried
exactly when the loop finished without `break`). -/
def match_step (m : Manufacturer) (l : Listing) (t : List Char) (ms : Matches) : Matches :=
  let r := families_step m.families l t ms
  if r.2 then r.1
  else (find_product_and_add_to_result m.orphans_products l t r.1).1

/-- Binary-search loop of `bisect.bisect_left` (compare by manufacturer
name against the key's name, `mid = (lo + hi) / 2`).  `fuel` bounds the
number of iterations; every iteration strictly shrinks `hi - lo`, so
`fuel = hi - lo` suffices. -/
def bisect_left_loop (mans : List Manufacturer) (key : List Char) :
    Nat → Nat → Nat → Nat
  | 0, lo, _ => lo
  | fuel + 1, lo, hi =>
    if lo < hi then
      if ltStr ((mans.getD ((lo + hi) / 2) defaultManufacturer).name) key then
        bisect_left_loop mans key fuel ((lo + hi) / 2 + 1) hi
      else
        bisect_left_loop mans key fuel lo ((lo + hi) / 2)
    else lo

/-- Embeds `bisect_left(self.manufacturers, Manufacturer(name))`. -/
def bisect_left (mans : List Manufacturer) (key : List Char) : Nat :=
  bisect_left_loop mans key mans.length 0 mans.length

/-- The two containment checks of `match_listings` at a given insertion
index: the element at the index first, then (if that failed or the index is
out of range) the element immediately preceding it. -/
def checkCandidates (mans : List Manufacturer) (nm : List Char) (index : Nat) :
    Option Manufacturer :=
  if index < mans.length ∧ isSubstr nm (mans.getD index defaultManufacturer).name then
    some (mans.getD index defaultManufacturer)
  else if 0 < index ∧ isSubstr nm (mans.getD (index - 1) defaultManufacturer).name then
    some (mans.getD (index - 1) defaultManufacturer)
  else none

/-- Embeds the manufacturer-resolution block of `match_listings`: binary
search for the insertion point of a synthetic `Manufacturer(name)`, then
the two containment checks. -/
def findManufacturer (mans : List Manufacturer) (nm : List Char) : Option Manufacturer :=
  checkCandidates mans nm (bisect_left mans (Manufacturer.make nm).name)

/-- Manufacturer resolution starting from the raw listing manufacturer
string (the caller normalizes it first). -/
def resolveManufacturer (mans : List Manufacturer) (raw : List Char) : Option Manufacturer :=
  findManufacturer mans (normalizeStr raw)

/-- Pure description of the family loop: the first family whose name is
contained in the title and whose products yield a match. -/
def resolveFamilies (fs : List Family) (t : List Char) : Option Product :=
  fs.findSome? (fun f => if isSubstr f.name t then find_product f.products t else none)

/-- Pure description of family-then-orphans product resolution. -/
def resolveProduct (m : Manufacturer) (t : List Char) : Option Product :=
  match resolveFamilies m.families t with
  | some p => some p
  | none => find_product m.orphans_products t

/-- Pure description of the whole per-listing resolution. -/
def resolveListing (mans : List Manufacturer) (l : Listing) : Option Product :=
  match resolveManufacturer mans l.manufacturer with
  | some m => resolveProduct m (normalizeStr l.title)
  | none => none

/-- Embeds the body of the `for line in listings_file` loop of
`match_listings` for one listing: normalize both fields, resolve the
manufacturer, then run the family/orphan step; an unresolved listing
leaves the state unchanged. -/
def process_listing (mans : List Manufacturer) (ms : Matches) (l : Listing) : Matches :=
  let nt := normalizeStr l.title
  match resolveManufacturer mans l.manufacturer with
  | some m => match_step m l nt ms
  | none => ms

/-- Embeds `Matcher.match_listings`: start from the empty dict and process
the listings in order. -/
def match_listings (mans : List Manufacturer) (ls : List Listing) : Matches :=
  ls.foldl (process_listing mans) []

/-- Adjacent ascending order by name (what `list.sort` establishes and
`bisect_left` requires). -/
def sortedByName : List Manufacturer → Bool
  | [] => true
  | [_] => true
  | a :: b :: rest => !ltStr b.name a.name && sortedByName (b :: rest)

/-- Modelled from the spec: manufacturer resolution described with the
insertion point of the sorted sequence — the number of names strictly below
the normalized listing string — followed by the two containment candidates
(insertion index, then the immediately preceding index). -/
def specResolveManufacturer (mans : List Manufacturer) (raw : List Char) : Option Manufacturer :=
  checkCandidates mans (normalizeStr raw)
    (mans.countP (fun m => ltStr m.name (normalizeStr raw)))

/-- Catalog manufacturer `"sony"` of the spec's manufacturer-resolution
scenario. -/
def sonyM : Manufacturer := Manufacturer.make ("sony".toList)

/-- Catalog manufacturer `"sony ericsson"` of the same scenario. -/
def sonyEM : Manufacturer := Manufacturer.make ("sony ericsson".toList)

/-- The catalog record of the end-to-end scenario. -/
def acmeRecord : RecordJson :=
  { manufacturer := some ("Acme".toList), product_name := some ("Acme Pro X100".toList),
    family := some ("Pro".toList), model := some ("X100".toList) }

/-- The catalog built from that single record. -/
def acmeCatalog : List Manufacturer := (prepare_products_data [acmeRecord]).getD []

/-- Listing `{manufacturer:"ACME", title:"Acme Pro X100 Black"}`. -/
def listing1 : Listing :=
  { manufacturer := ("ACME".toList), title := ("Acme Pro X100 Black".toList), payload := 0 }

/-- Listing `{manufacturer:"ACME", title:"Acme Pro X1000 Black"}`. -/
def listing2 : Listing :=
  { manufacturer := ("ACME".toList), title := ("Acme Pro X1000 Black".toList), payload := 1 }

/-- A record missing its required `manufacturer` field. -/
def badRecord : RecordJson :=
  { manufacturer := none, product_name := some ("X".toList),
    family := none, model := some ("m1".toList) }

/-- A product whose model is the single character `.` — a regex
metacharacter interpolated unescaped into the compiled pattern. -/
def dotProduct : Product := Product.make ("dot".toList) none (".".toList)

/-- A product whose model `"ab "` is metacharacter-free but ends in a
non-word character, so the trailing `$` of the compiled pattern can fire
just before a trailing newline of the title. -/
def spaceProduct : Product := Product.make ("sp".toList) none ("ab ".toList)

/-- A one-product candidate list with a plain alphanumeric model. -/
def plainProducts : List Product :=
  [Product.make ("p one".toList) none ("x100".toList)]

/-- A family whose name does not occur in the witness title. -/
def familyZ : Family :=
  { name := ("zzz".toList), products := plainProducts }

/-- A listing used by concrete witnesses. -/
def listingW : Listing :=
  { manufacturer := ("acme".toList), title := ("x100 black".toList), payload := 7 }

/-- A record missing only the optional `family` field. -/
def noFamilyRecord : RecordJson :=
  { manufacturer := some ("a".toList), product_name := some ("n".toList),
    family := none, model := some ("m".toList) }

/-! ### Normalization lemmas -/

/-- Lower-casing a character twice is the same as doing it once. -/
theorem lowerChar_idem (c : Char) : lowerChar (lowerChar c) = lowerChar c := by
  by_cases h : 65 ≤ c.toNat ∧ c.toNat ≤ 90
  · obtain ⟨h1, h2⟩ := h
    rw [show lowerChar c = Char.ofNat (c.toNat + 32) from by
      rw [lowerChar]; exact if_pos ⟨h1, h2⟩]
    set n := c.toNat with hn
    interval_cases n <;> decide
  · have hstep : lowerChar c = c := by rw [lowerChar]; exact if_neg h
    rw [hstep]
    exact hstep

/-- Lower-casing a string twice is the same as doing it once. -/
theorem normalizeStr_idem (s : List Char) : normalizeStr (normalizeStr s) = normalizeStr s := by
  induction s with
  | nil => rfl
  | cons c cs ih =>
    show lowerChar (lowerChar c) :: normalizeStr (normalizeStr cs) = lowerChar c :: normalizeStr cs
    rw [lowerChar_idem, ih]

/-- C7: `normalize` is idempotent on every input, case-insensitive
(`normalize("ABC") == normalize("abc")`), and the identity on the empty
string and on absent (`None`) input. -/
theorem c7_normalize_idempotent_case_insensitive :
    (∀ s, normalize (normalize s) = normalize s)
    ∧ normalize (some ("ABC".toList)) = normalize (some ("abc".toList))
    ∧ normalize (some []) = some []
    ∧ normalize none = none := by
  refine ⟨?_, by decide, rfl, rfl⟩
  intro s
  cases s with
  | none => rfl
  | some s =>
    show some (normalizeStr (normalizeStr s)) = some (normalizeStr s)
    rw [normalizeStr_idem]

/-! ### Lexicographic-order lemmas for Python string comparison -/

/-- Nothing is lexicographically below the empty string. -/
theorem ltStr_nil_right (x : List Char) : ltStr x [] = false := by
  cases x <;> rfl

/-- Lexicographic comparison is irreflexive. -/
theorem ltStr_irrefl (x : List Char) : ltStr x x = false := by
  induction x with
  | nil => rfl
  | cons a as ih =>
    show (if a < a then true else if a < a then false else ltStr as as) = false
    rw [if_neg (lt_irrefl a), if_neg (lt_irrefl a)]
    exact ih

/-- Lexicographic comparison is transitive. -/
theorem ltStr_trans : ∀ {x y z : List Char},
    ltStr x y = true → ltStr y z = true → ltStr x z = true := by
  intro x
  induction x with
  | nil =>
    intro y z hxy hyz
    cases y with
    | nil => simp [ltStr] at hxy
    | cons b bs =>
      cases z with
      | nil => simp [ltStr_nil_right] at hyz
      | cons c cs => rfl
  | cons a as ih =>
    intro y z hxy hyz
    cases y with
    | nil => simp [ltStr_nil_right] at hxy
    | cons b bs =>
      cases z with
      | nil => simp [ltStr_nil_right] at hyz
      | cons c cs =>
        simp only [ltStr] at hxy hyz ⊢
        by_cases hab : a < b
        · by_cases hbc : b < c
          · rw [if_pos (lt_trans hab hbc)]
          · rw [if_neg hbc] at hyz
            by_cases hcb : c < b
            · rw [if_pos hcb] at hyz; exact absurd hyz (by simp)
            · have hbceq : b = c := le_antisymm (not_lt.mp hcb) (not_lt.mp hbc)
              rw [if_pos (hbceq ▸ hab)]
        · rw [if_neg hab] at hxy
          by_cases hba : b < a
          · rw [if_pos hba] at hxy; exact absurd hxy (by simp)
          · have habeq : a = b := le_antisymm (not_lt.mp hba) (not_lt.mp hab)
            rw [if_neg hba] at hxy
            by_cases hbc : b < c
            · rw [if_pos (habeq ▸ hbc : a < c)]
            · rw [if_neg hbc] at hyz
              by_cases hcb : c < b
              · rw [if_pos hcb] at hyz; exact absurd hyz (by simp)
              · rw [if_neg hcb] at hyz
                have hbceq : b = c := le_antisymm (not_lt.mp hcb) (not_lt.mp hbc)
                have hac : ¬a < c := by rw [habeq, hbceq]; exact lt_irrefl c
                have hca : ¬c < a := by rw [habeq, hbceq]; exact lt_irrefl c
                rw [if_neg hac, if_neg hca]
                exact ih hxy hyz

/-- Two strings neither of which is below the other are equal. -/
theorem ltStr_antisymm : ∀ {x y : List Char},
    ltStr x y = false → ltStr y x = false → x = y := by
  intro x
  induction x with
  | nil =>
    intro y h1 h2
    cases y with
    | nil => rfl
    | cons b bs => simp [ltStr] at h1
  | cons a as ih =>
    intro y h1 h2
    cases y with
    | nil => simp [ltStr] at h2
    | cons b bs =>
      simp only [ltStr] at h1 h2
      by_cases hab : a < b
      · rw [if_pos hab] at h1; exact absurd h1 (by simp)
      · by_cases hba : b < a
        · rw [if_pos hba] at h2; exact absurd h2 (by simp)
        · rw [if_neg hab, if_neg hba] at h1
          rw [if_neg hba, if_neg hab] at h2
          have hab2 : a = b := le_antisymm (not_lt.mp hba) (not_lt.mp hab)
          rw [hab2, ih h1 h2]

/-- From `x ≤ y` and `y < k` conclude `x < k`. -/
theorem ltStr_le_lt_trans {x y k : List Char}
    (hxy : ltStr y x = false) (hyk : ltStr y k = true) : ltStr x k = true := by
  cases h : ltStr x y with
  | true => exact ltStr_trans h hyk
  | false => rw [ltStr_antisymm h hxy]; exact hyk

/-- From `a < b` and `b ≤ c` conclude `a < c`. -/
theorem ltStr_lt_le_trans {a b c : List Char}
    (h1 : ltStr a b = true) (h2 : ltStr c b = false) : ltStr a c = true := by
  cases h : ltStr b c with
  | true => exact ltStr_trans h1 h
  | false => exact (ltStr_antisymm h h2) ▸ h1

/-- From `x ≤ y` and `y ≤ z` conclude `x ≤ z`. -/
theorem ltStr_le_trans {x y z : List Char}
    (h1 : ltStr y x = false) (h2 : ltStr z y = false) : ltStr z x = false := by
  cases h : ltStr z x with
  | false => rfl
  | true => exact absurd (ltStr_lt_le_trans h h1) (by simp [h2])

/-- The empty string is contained in every string. -/
theorem isSubstr_nil_left : ∀ hay : List Char, isSubstr [] hay = true := by
  intro hay
  induction hay with
  | nil => rfl
  | cons c rest ih => simp [isSubstr, startsWith]

/-! ### Whole-token pattern lemmas -/

/-- A model always matches itself (atom by atom), ending at end of string. -/
theorem matchTail_self : ∀ (m : List Char) (prev : Option Char), matchTail m prev m = true := by
  intro m
  induction m with
  | nil => intro prev; rfl
  | cons a as ih =>
    intro prev
    show ((a = '.' && !(a = '\n') || a = a) && matchTail as (some a) as) = true
    simp [ih]

/-- The compiled pattern accepts a title equal to the model itself. -/
theorem whole_model_search_self (m : List Char) : whole_model_search m m = true := by
  have h : matchHere m none m = true := by
    unfold matchHere
    simp [matchTail_self]
  cases m with
  | nil => exact h
  | cons c cs =>
    show (matchHere (c :: cs) none (c :: cs) || searchFrom (c :: cs) (some c) cs) = true
    rw [h]
    rfl

/-- On models without the `'.'` wildcard and input without newlines, the
regex atoms behave as literals and the trailing `$`-before-newline case
never fires. -/
theorem matchTail_eq_litTail : ∀ (m : List Char), ('.' ∈ m → False) →
    ∀ (prev : Option Char) (rest : List Char), ('\n' ∈ rest → False) →
      matchTail m prev rest = litTail m prev rest := by
  intro m
  induction m with
  | nil =>
    intro _ prev rest hnl
    have hne : rest ≠ ['\n'] := by
      intro he
      apply hnl
      rw [he]
      simp
    show (rest.isEmpty || rest = ['\n'] || isBoundary prev rest)
      = (rest.isEmpty || isBoundary prev rest)
    simp [hne]
  | cons a as ih =>
    intro hdot prev rest hnl
    cases rest with
    | nil => rfl
    | cons c cs =>
      show ((a = '.' && !(c = '\n') || a = c) && matchTail as (some c) cs)
        = ((a = c) && litTail as (some c) cs)
      have ha : a ≠ '.' := fun he => hdot (he ▸ List.mem_cons_self a as)
      rw [ih (fun hm => hdot (List.mem_cons_of_mem a hm)) (some c) cs
        (fun hm => hnl (List.mem_cons_of_mem c hm))]
      simp [ha]

/-- On models without the `'.'` wildcard and titles without newlines, the
scan coincides with the literal whole-token scan. -/
theorem searchFrom_eq_lit (m : List Char) (hdot : '.' ∈ m → False) :
    ∀ (rest : List Char), ('\n' ∈ rest → False) → ∀ (prev : Option Char),
      searchFrom m prev rest = litSearchFrom m prev rest := by
  intro rest
  induction rest with
  | nil =>
    intro hnl prev
    show matchHere m prev [] = litHere m prev []
    unfold matchHere litHere
    rw [matchTail_eq_litTail m hdot prev [] (fun hm => List.not_mem_nil '\n' hm)]
  | cons c cs ih =>
    intro hnl prev
    show (matchHere m prev (c :: cs) || searchFrom m (some c) cs)
      = (litHere m prev (c :: cs) || litSearchFrom m (some c) cs)
    unfold matchHere litHere
    rw [matchTail_eq_litTail m hdot prev (c :: cs) hnl,
      ih (fun hm => hnl (List.mem_cons_of_mem c hm)) (some c)]

/-- The selection loop is `List.find?` over the compiled-pattern test. -/
theorem find_product_eq_find? : ∀ (ps : List Product) (t : List Char),
    find_product ps t = ps.find? (fun p => whole_model_search p.model t) := by
  intro ps t
  induction ps with
  | nil => rfl
  | cons p ps ih =>
    show (if whole_model_search p.model t = true then some p else find_product ps t) = _
    cases hc : whole_model_search p.model t with
    | true => simp [List.find?, hc]
    | false => simp [List.find?, hc, ih]

/-- When every candidate's pattern behaves literally, the selection loop is
first-match over literal whole-token occurrence. -/
theorem find_product_congr : ∀ (ps : List Product) (t : List Char),
    (∀ p ∈ ps, whole_model_search p.model t = wholeTokenOccurs p.model t) →
    find_product ps t = ps.find? (fun p => wholeTokenOccurs p.model t) := by
  intro ps t
  induction ps with
  | nil => intro _; rfl
  | cons p ps ih =>
    intro h
    have hp := h p (List.mem_cons_self p ps)
    have ih2 := ih (fun q hq => h q (List.mem_cons_of_mem p hq))
    show (if whole_model_search p.model t = true then some p else find_product ps t) = _
    cases hc : wholeTokenOccurs p.model t with
    | true => simp [List.find?, hp, hc]
    | false => simp [List.find?, hp, hc, ih2]

/-- C1 (counterexample): product resolution selects a product whose model
does **not** occur in the title as a whole token, refuting the claim for
arbitrary model strings, on two concrete inputs: the model `"."` —
interpolated unescaped into the compiled pattern — matches the title
`"x"`, and the metacharacter-free model `"ab "` matches the title
`"ab \n"` because the pattern's `$` fires just before the trailing
newline. -/
theorem c1_counterexample :
    (find_product [dotProduct] ("x".toList) = some dotProduct
      ∧ wholeTokenOccurs dotProduct.model ("x".toList) = false)
    ∧ (find_product [spaceProduct] ("ab \n".toList) = some spaceProduct
      ∧ wholeTokenOccurs spaceProduct.model ("ab \n".toList) = false) := by decide

/-- C1 (amended): for candidate lists whose models contain no regex
metacharacter and titles containing no newline character, product
resolution selects exactly the first product in list order whose model
occurs in the title as a whole token, fails exactly when no candidate's
model so occurs, and a title equal to a candidate's model is always
resolved. -/
theorem c1_first_whole_token_match (ps : List Product) (t : List Char)
    (h : ∀ p ∈ ps, ∀ c ∈ p.model, regexSpecialChar c = false)
    (hn : '\n' ∉ t) :
    find_product ps t = ps.find? (fun p => wholeTokenOccurs p.model t)
    ∧ (find_product ps t = none ↔ ∀ p ∈ ps, wholeTokenOccurs p.model t = false)
    ∧ ∀ p ∈ ps, (find_product ps p.model).isSome = true := by
  have hconv : ∀ p ∈ ps, whole_model_search p.model t = wholeTokenOccurs p.model t := by
    intro p hp
    have hdot : '.' ∈ p.model → False := by
      intro hm
      have hsp := h p hp '.' hm
      simp [regexSpecialChar] at hsp
    exact searchFrom_eq_lit p.model hdot t hn none
  have h1 := find_product_congr ps t hconv
  refine ⟨h1, ?_, ?_⟩
  · rw [h1, List.find?_eq_none]
    constructor
    · intro hall p hp
      have := hall p hp
      simpa using this
    · intro hall p hp
      simp [hall p hp]
  · intro p hp
    rw [find_product_eq_find?, List.find?_isSome]
    exact ⟨p, hp, whole_model_search_self p.model⟩

/-- Witness for the amended C1 at a concrete literal-model candidate list. -/
theorem c1_witness :
    find_product plainProducts ("x100 black".toList)
      = plainProducts.find? (fun p => wholeTokenOccurs p.model ("x100 black".toList)) :=
  (c1_first_whole_token_match plainProducts ("x100 black".toList) (by decide) (by decide)).1

/-! ### Correspondence between the stateful loops and their pure descriptions -/

/-- The add-to-result loop records the listing under the selected product's
name and reports whether one was selected. -/
theorem fpaar_spec : ∀ (ps : List Product) (l : Listing) (t : List Char) (ms : Matches),
    find_product_and_add_to_result ps l t ms
      = match find_product ps t with
        | some p => (recordMatch ms p.name l, true)
        | none => (ms, false) := by
  intro ps l t ms
  induction ps with
  | nil => rfl
  | cons p ps ih =>
    cases hc : whole_model_search p.model t with
    | true => simp [find_product_and_add_to_result, find_product, hc]
    | false => simp [find_product_and_add_to_result, find_product, hc, ih]

/-- The family loop implements `resolveFamilies` and records on success. -/
theorem families_step_spec : ∀ (fs : List Family) (l : Listing) (t : List Char) (ms : Matches),
    families_step fs l t ms
      = match resolveFamilies fs t with
        | some p => (recordMatch ms p.name l, true)
        | none => (ms, false) := by
  intro fs l t
  induction fs with
  | nil => intro ms; rfl
  | cons f fs ih =>
    intro ms
    cases hsub : isSubstr f.name t with
    | false => simp [families_step, resolveFamilies, List.findSome?_cons, hsub, ih,
        resolveFamilies]
    | true =>
      cases hfp : find_product f.products t with
      | some p =>
        simp [families_step, resolveFamilies, List.findSome?_cons, hsub, hfp, fpaar_spec]
      | none =>
        simp [families_step, resolveFamilies, List.findSome?_cons, hsub, hfp, fpaar_spec, ih]

/-- The family-then-orphans step implements `resolveProduct` and records on
success. -/
theorem match_step_spec : ∀ (m : Manufacturer) (l : Listing) (t : List Char) (ms : Matches),
    match_step m l t ms
      = match resolveProduct m t with
        | some p => recordMatch ms p.name l
        | none => ms := by
  intro m l t ms
  unfold match_step resolveProduct
  rw [families_step_spec]
  cases hr : resolveFamilies m.families t with
  | some p => simp
  | none =>
    cases ho : find_product m.orphans_products t <;> simp [fpaar_spec, ho]

/-- One listing is processed by recording under the resolved product, or by
leaving the state unchanged. -/
theorem process_listing_spec : ∀ (mans : List Manufacturer) (ms : Matches) (l : Listing),
    process_listing mans ms l
      = match resolveListing mans l with
        | some p => recordMatch ms p.name l
        | none => ms := by
  intro mans ms l
  unfold process_listing resolveListing
  cases hm : resolveManufacturer mans l.manufacturer with
  | none => rfl
  | some m => simp [match_step_spec]

/-! ### Aggregation-state lemmas -/

/-- Recording appends to the key's sequence, creating it on first use. -/
theorem lookup_recordMatch_self : ∀ (ms : Matches) (k : List Char) (l : Listing),
    lookupMatches (recordMatch ms k l) k = some ((lookupMatches ms k).getD [] ++ [l]) := by
  intro ms k l
  induction ms with
  | nil => simp [recordMatch, lookupMatches]
  | cons kv rest ih =>
    obtain ⟨k1, v⟩ := kv
    by_cases hk : k1 = k
    · simp [recordMatch, lookupMatches, hk]
    · simp [recordMatch, lookupMatches, hk, ih]

/-- Recording under one key leaves every other key's sequence unchanged. -/
theorem lookup_recordMatch_other : ∀ (ms : Matches) (k : List Char) (l : Listing) (k2 : List Char),
    k2 ≠ k → lookupMatches (recordMatch ms k l) k2 = lookupMatches ms k2 := by
  intro ms k l k2 hne
  induction ms with
  | nil => simp [recordMatch, lookupMatches, Ne.symm hne]
  | cons kv rest ih =>
    obtain ⟨k1, v⟩ := kv
    by_cases hk : k1 = k
    · subst hk
      simp [recordMatch, lookupMatches, Ne.symm hne]
    · simp [recordMatch, lookupMatches, hk, ih]

/-! ### Claim theorems C3, C4, C5, C6, C8 -/

/-- C3: families are tested in first-seen order with their product lists
handed to product resolution (`families_step` equals first-success over the
family list); no family succeeding is exactly "no family name occurs in the
title or every matching family failed product resolution"; and the orphan
list is consulted exactly in that case, never after a family-scoped
success. -/
theorem c3_family_precedence_orphan_fallback :
    (∀ fs l t ms, families_step fs l t ms
        = match resolveFamilies fs t with
          | some p => (recordMatch ms p.name l, true)
          | none => (ms, false))
    ∧ (∀ fs t, resolveFamilies fs t = none ↔
        ∀ f ∈ fs, isSubstr f.name t = true → find_product f.products t = none)
    ∧ (∀ m t, resolveProduct m t
        = match resolveFamilies m.families t with
          | some p => some p
          | none => find_product m.orphans_products t)
    ∧ (∀ m l t ms, match_step m l t ms
        = match resolveProduct m t with
          | some p => recordMatch ms p.name l
          | none => ms) := by
  refine ⟨families_step_spec, ?_, fun m t => rfl, match_step_spec⟩
  intro fs t
  rw [resolveFamilies, List.findSome?_eq_none_iff]
  constructor
  · intro hall f hf hsub
    have hthis := hall f hf
    rw [if_pos hsub] at hthis
    exact hthis
  · intro hall f hf
    by_cases hsub : isSubstr f.name t = true
    · rw [if_pos hsub]
      exact hall f hf hsub
    · rw [if_neg hsub]

/-- Witness for C3: a family list whose single family name does not occur
in the title resolves to `none`. -/
theorem c3_witness : resolveFamilies [familyZ] ("x100 black".toList) = none :=
  (c3_family_precedence_orphan_fallback.2.1 [familyZ] ("x100 black".toList)).mpr (by decide)

/-- C4: for the one-record Acme catalog, the listing titled
`"Acme Pro X100 Black"` is matched to the product of the record named
`"Acme Pro X100"` (recorded under that product's key), and the listing
titled `"Acme Pro X1000 Black"` is unmatched — the word boundary rejects
`x100` inside `x1000`. -/
theorem c4_end_to_end_scenario :
    match_listings acmeCatalog [listing1, listing2]
      = [(normalizeStr ("Acme Pro X100".toList), [listing1])]
    ∧ resolveListing acmeCatalog listing1
      = some (Product.make ("Acme Pro X100".toList) (some ("Pro".toList)) ("X100".toList))
    ∧ resolveListing acmeCatalog listing2 = none := by decide

/-- C5 (counterexample): the record's display-name field is
`"Acme Pro X100"`, yet the key under which its matched listing is
aggregated is `"acme pro x100"` — a transformed (lower-cased) form, not the
display name exactly as given. -/
theorem c5_counterexample :
    acmeRecord.product_name = some ("Acme Pro X100".toList)
    ∧ (match_listings acmeCatalog [listing1]).map Prod.fst = [("acme pro x100".toList)]
    ∧ ("acme pro x100".toList) ≠ ("Acme Pro X100".toList) := by decide

/-- C5 (amended): the aggregation key is the *normalized* (lower-cased)
catalog display name of the matched product. -/
theorem c5_key_is_normalized_display_name :
    (∀ name fam model, (Product.make name fam model).name = normalizeStr name)
    ∧ (∀ ps l t ms p, find_product ps t = some p →
        find_product_and_add_to_result ps l t ms = (recordMatch ms p.name l, true)) := by
  refine ⟨fun name fam model => rfl, ?_⟩
  intro ps l t ms p h
  rw [fpaar_spec, h]

/-- Witness for the amended C5 at a concrete candidate list. -/
theorem c5_witness :
    find_product_and_add_to_result plainProducts listingW ("x100 black".toList) []
      = (recordMatch [] (Product.make ("p one".toList) none ("x100".toList)).name listingW,
          true) :=
  c5_key_is_normalized_display_name.2 plainProducts listingW ("x100 black".toList) []
    (Product.make ("p one".toList) none ("x100".toList)) (by decide)

/-- A record with a missing required field fails on any accumulated state. -/
theorem addRecord_bad (r : RecordJson)
    (h : r.manufacturer = none ∨ r.product_name = none ∨ r.model = none) :
    ∀ acc, addRecord acc r = none := by
  intro acc
  obtain ⟨rm, rn, rf, rmod⟩ := r
  cases rm <;> cases rn <;> cases rmod <;> simp_all [addRecord]

/-- A failing record anywhere in the file fails the whole fold. -/
theorem foldlM_addRecord_bad (r : RecordJson) (hbad : ∀ acc, addRecord acc r = none) :
    ∀ (pre post : List RecordJson) (acc : List Manufacturer),
      List.foldlM addRecord acc (pre ++ r :: post) = none := by
  intro pre
  induction pre with
  | nil =>
    intro post acc
    show List.foldlM addRecord acc (r :: post) = none
    rw [List.foldlM_cons, hbad]
    rfl
  | cons x xs ih =>
    intro post acc
    show List.foldlM addRecord acc (x :: (xs ++ r :: post)) = none
    cases hx : addRecord acc x with
    | none => simp [List.foldlM_cons, hx]
    | some acc2 => simp [List.foldlM_cons, hx, ih]

/-- C6: catalog construction fails as a whole whenever any record lacks a
required `manufacturer`, `product_name` or `model` field; a record lacking
only the optional `family` goes to the manufacturer's orphan list (leaving
the family list untouched), as the concrete one-record catalog shows; and a
listing that resolves to nothing leaves the run's state unchanged (it never
aborts the run). -/
theorem c6_construction_error_handling :
    (∀ r, (r.manufacturer = none ∨ r.product_name = none ∨ r.model = none) →
      ∀ pre post, prepare_products_data (pre ++ r :: post) = none)
    ∧ (∀ m p, p.family = none →
        (Manufacturer.add_product m p).orphans_products = m.orphans_products ++ [p]
        ∧ (Manufacturer.add_product m p).families = m.families)
    ∧ prepare_products_data [noFamilyRecord]
      = some [{ name := ("a".toList),
                products := [{ name := ("n".toList), family := none, model := ("m".toList) }],
                families := [],
                orphans_products := [{ name := ("n".toList), family := none,
                                       model := ("m".toList) }] }]
    ∧ (∀ mans ms l, resolveListing mans l = none → process_listing mans ms l = ms) := by
  refine ⟨?_, ?_, by decide, ?_⟩
  · intro r h pre post
    unfold prepare_products_data
    rw [foldlM_addRecord_bad r (addRecord_bad r h) pre post []]
    rfl
  · intro m p h
    simp [Manufacturer.add_product, h]
  · intro mans ms l h
    rw [process_listing_spec, h]

/-- Witness for C6: the one-record file whose record lacks `manufacturer`
fails construction. -/
theorem c6_witness : prepare_products_data ([] ++ badRecord :: []) = none :=
  c6_construction_error_handling.1 badRecord (Or.inl rfl) [] []

/-- C8: recording appends to the key's ordered sequence (no dedup),
recording L1 then L2 under a fresh key yields `[L1, L2]`, other keys are
untouched, and no key present in the state is ever removed by processing a
further listing. -/
theorem c8_result_aggregation :
    (∀ ms k l, lookupMatches (recordMatch ms k l) k
        = some ((lookupMatches ms k).getD [] ++ [l]))
    ∧ (∀ ms k l1 l2, lookupMatches ms k = none →
        lookupMatches (recordMatch (recordMatch ms k l1) k l2) k = some [l1, l2])
    ∧ (∀ ms k l k2, k2 ≠ k → lookupMatches (recordMatch ms k l) k2 = lookupMatches ms k2)
    ∧ (∀ mans ms l k v, lookupMatches ms k = some v →
        ∃ w, lookupMatches (process_listing mans ms l) k = some w) := by
  refine ⟨lookup_recordMatch_self, ?_, lookup_recordMatch_other, ?_⟩
  · intro ms k l1 l2 h
    rw [lookup_recordMatch_self, lookup_recordMatch_self, h]
    rfl
  · intro mans ms l k v hv
    rw [process_listing_spec]
    cases hr : resolveListing mans l with
    | none => exact ⟨v, hv⟩
    | some p =>
      by_cases hk : k = p.name
      · subst hk
        rw [lookup_recordMatch_self]
        exact ⟨_, rfl⟩
      · rw [lookup_recordMatch_other _ _ _ _ hk]
        exact ⟨v, hv⟩

/-- Witness for C8: two listings recorded under one fresh key. -/
theorem c8_witness :
    lookupMatches (recordMatch (recordMatch [] ("k".toList) listingW) ("k".toList) listing1)
      ("k".toList) = some [listingW, listing1] :=
  c8_result_aggregation.2.1 [] ("k".toList) listingW listing1 rfl

/-! ### Sortedness and binary-search lemmas -/

/-- The head of a sorted list is below-or-equal every later element. -/
theorem sortedByName_cons : ∀ {a : Manufacturer} {l : List Manufacturer},
    sortedByName (a :: l) = true →
    sortedByName l = true ∧ ∀ b ∈ l, ltStr b.name a.name = false := by
  intro a l
  induction l generalizing a with
  | nil => intro _; exact ⟨rfl, by simp⟩
  | cons x xs ih =>
    intro h
    have h2 : ltStr x.name a.name = false ∧ sortedByName (x :: xs) = true := by
      have h3 : (!ltStr x.name a.name && sortedByName (x :: xs)) = true := h
      rw [Bool.and_eq_true, Bool.not_eq_true'] at h3
      exact h3
    obtain ⟨hax, hs⟩ := h2
    refine ⟨hs, ?_⟩
    intro b hb
    rcases List.mem_cons.mp hb with hb | hb
    · rw [hb]; exact hax
    · exact ltStr_le_trans hax ((ih hs).2 b hb)

/-- A sorted list is pairwise ascending. -/
theorem sorted_pairwise : ∀ {l : List Manufacturer}, sortedByName l = true →
    List.Pairwise (fun a b => ltStr b.name a.name = false) l := by
  intro l
  induction l with
  | nil => intro _; exact List.Pairwise.nil
  | cons a t ih =>
    intro h
    obtain ⟨ht, hall⟩ := sortedByName_cons h
    exact List.Pairwise.cons hall (ih ht)

/-- Positional form of sortedness: the element at a later index is never
below the element at an earlier one. -/
theorem sorted_le_get {l : List Manufacturer} (h : sortedByName l = true)
    (i j : Nat) (hi : i < l.length) (hj : j < l.length) (hij : i ≤ j) :
    ltStr (l.get ⟨j, hj⟩).name (l.get ⟨i, hi⟩).name = false := by
  rcases Nat.eq_or_lt_of_le hij with heq | hlt
  · subst heq
    exact ltStr_irrefl _
  · have hp := sorted_pairwise h
    rw [List.pairwise_iff_getElem] at hp
    have hthis := hp i j hi hj hlt
    simpa [List.get_eq_getElem] using hthis

/-- For a predicate that is downward closed along the list, the positions
satisfying it are exactly those below its count. -/
theorem countP_char : ∀ (l : List Manufacturer) (q : Manufacturer → Bool),
    (∀ i j (hi : i < l.length) (hj : j < l.length), i ≤ j →
      q (l.get ⟨j, hj⟩) = true → q (l.get ⟨i, hi⟩) = true) →
    ∀ i (hi : i < l.length), (q (l.get ⟨i, hi⟩) = true ↔ i < l.countP q) := by
  intro l
  induction l with
  | nil =>
    intro q _ i hi
    exact absurd hi (by simp)
  | cons m t ih =>
    intro q DC i hi
    have DCt : ∀ i j (hi2 : i < t.length) (hj2 : j < t.length), i ≤ j →
        q (t.get ⟨j, hj2⟩) = true → q (t.get ⟨i, hi2⟩) = true := by
      intro i2 j2 hi2 hj2 hle hq
      have hstep := DC (i2 + 1) (j2 + 1) (by simpa using Nat.succ_lt_succ hi2)
        (by simpa using Nat.succ_lt_succ hj2) (Nat.succ_le_succ hle) (by simpa using hq)
      simpa using hstep
    rw [List.countP_cons]
    cases hm : q m with
    | false =>
      have hambient : ∀ j (hj : j < t.length), q (t.get ⟨j, hj⟩) = false := by
        intro j hj
        cases hq : q (t.get ⟨j, hj⟩) with
        | false => rfl
        | true =>
          have hstep := DC 0 (j + 1) (by simp) (by simpa using Nat.succ_lt_succ hj)
            (Nat.zero_le _) (by simpa using hq)
          simp [hm] at hstep
      have hcnt : t.countP q = 0 := by
        rw [List.countP_eq_zero]
        intro a ha
        obtain ⟨j, hj, rfl⟩ := List.mem_iff_getElem.mp ha
        have hj2 := hambient j hj
        simp [List.get_eq_getElem] at hj2
        simp [hj2]
      rw [hcnt]
      have hzero : (0 : Nat) + (if (false = true) then 1 else 0) = 0 := rfl
      rw [hzero]
      cases i with
      | zero => simp [hm]
      | succ i2 =>
        have hi2 : i2 < t.length := by
          have hlen := hi
          simp only [List.length_cons] at hlen
          omega
        have hamb : q t[i2] = false := by
          have hx := hambient i2 hi2
          simpa [List.get_eq_getElem] using hx
        simp [hamb]
    | true =>
      have hone : List.countP q t + (if (true = true) then 1 else 0) = t.countP q + 1 := rfl
      rw [hone]
      cases i with
      | zero => simp [hm]
      | succ i2 =>
        have hi2 : i2 < t.length := by
          have hlen := hi
          simp only [List.length_cons] at hlen
          omega
        have hiff := ih q DCt i2 hi2
        simp only [List.get_cons_succ]
        rw [hiff]
        omega

/-- The binary-search loop returns the count of elements below the key,
given enough fuel and a window bracketing that count. -/
theorem bisect_loop_eq (mans : List Manufacturer) (key : List Char) (cnt : Nat)
    (hchar : ∀ i (hi : i < mans.length),
      (ltStr (mans.get ⟨i, hi⟩).name key = true ↔ i < cnt)) :
    ∀ (fuel lo hi : Nat), hi - lo ≤ fuel → lo ≤ cnt → cnt ≤ hi → hi ≤ mans.length →
      bisect_left_loop mans key fuel lo hi = cnt := by
  intro fuel
  induction fuel with
  | zero =>
    intro lo hi h1 h2 h3 h4
    show lo = cnt
    omega
  | succ fuel ih =>
    intro lo hi h1 h2 h3 h4
    show (if lo < hi then
            if ltStr ((mans.getD ((lo + hi) / 2) defaultManufacturer).name) key then
              bisect_left_loop mans key fuel ((lo + hi) / 2 + 1) hi
            else bisect_left_loop mans key fuel lo ((lo + hi) / 2)
          else lo) = cnt
    by_cases hlh : lo < hi
    · rw [if_pos hlh]
      have hmidlt : (lo + hi) / 2 < mans.length := by omega
      have hgd : mans.getD ((lo + hi) / 2) defaultManufacturer
          = mans.get ⟨(lo + hi) / 2, hmidlt⟩ := by
        rw [List.getD_eq_getElem mans defaultManufacturer hmidlt]
        exact (List.get_eq_getElem mans ⟨(lo + hi) / 2, hmidlt⟩).symm
      by_cases hcb : ltStr ((mans.getD ((lo + hi) / 2) defaultManufacturer).name) key = true
      · rw [if_pos hcb]
        rw [hgd] at hcb
        have hmc : (lo + hi) / 2 < cnt := (hchar _ hmidlt).mp hcb
        exact ih ((lo + hi) / 2 + 1) hi (by omega) (by omega) h3 h4
      · rw [if_neg hcb]
        have hcm : cnt ≤ (lo + hi) / 2 := by
          by_contra hcon
          push_neg at hcon
          have hlt := (hchar _ hmidlt).mpr hcon
          rw [← hgd] at hlt
          exact hcb hlt
        exact ih lo ((lo + hi) / 2) (by omega) h2 hcm (by omega)
    · rw [if_neg hlh]
      omega

/-- On a sorted list, `bisect_left` computes the insertion point: the
number of names strictly below the key. -/
theorem bisect_eq_countP {mans : List Manufacturer} (h : sortedByName mans = true)
    (key : List Char) :
    bisect_left mans key = mans.countP (fun m => ltStr m.name key) := by
  have DC : ∀ i j (hi : i < mans.length) (hj : j < mans.length), i ≤ j →
      ltStr (mans.get ⟨j, hj⟩).name key = true → ltStr (mans.get ⟨i, hi⟩).name key = true := by
    intro i j hi hj hij hq
    exact ltStr_le_lt_trans (sorted_le_get h i j hi hj hij) hq
  have hchar := countP_char mans (fun m => ltStr m.name key) DC
  have hcnt := List.countP_le_length (fun m => ltStr m.name key) (l := mans)
  exact bisect_loop_eq mans key _ hchar mans.length 0 mans.length (by omega)
    (Nat.zero_le _) hcnt (le_refl _)

/-! ### Claim theorems C2 and C10 -/

/-- C2: on a sorted catalog, manufacturer resolution normalizes the listing
string, locates the insertion point of the sorted name sequence, and
succeeds exactly through the two containment candidates (insertion index,
then the preceding index); in particular with manufacturers
`["sony", "sony ericsson"]` and listing manufacturer `"sony"`, it selects
`"sony"`. -/
theorem c2_manufacturer_resolution :
    (∀ mans raw, sortedByName mans = true →
      resolveManufacturer mans raw = specResolveManufacturer mans raw)
    ∧ resolveManufacturer [sonyM, sonyEM] ("sony".toList) = some sonyM := by
  refine ⟨?_, by decide⟩
  intro mans raw hs
  unfold resolveManufacturer findManufacturer specResolveManufacturer
  have hname : (Manufacturer.make (normalizeStr raw)).name = normalizeStr raw := by
    show normalizeStr (normalizeStr raw) = normalizeStr raw
    exact normalizeStr_idem raw
  rw [hname, bisect_eq_countP hs]

/-- Witness for C2 at a concrete sorted two-manufacturer catalog. -/
theorem c2_witness :
    resolveManufacturer [sonyM, sonyEM] ("sony e".toList)
      = specResolveManufacturer [sonyM, sonyEM] ("sony e".toList) :=
  c2_manufacturer_resolution.1 [sonyM, sonyEM] ("sony e".toList) (by decide)

/-- C10: on a sorted non-empty catalog, a listing manufacturer string that
normalizes to the empty string always resolves — to the first (hence
lexicographically smallest) manufacturer — so such a listing is never
classified as having no manufacturer. -/
theorem c10_empty_string_selects_first (mans : List Manufacturer) (s : List Char)
    (h1 : sortedByName mans = true) (h2 : mans ≠ []) (h3 : normalizeStr s = []) :
    resolveManufacturer mans s = some (mans.getD 0 defaultManufacturer)
    ∧ ∀ m ∈ mans, ltStr m.name (mans.getD 0 defaultManufacturer).name = false := by
  have hkey : (Manufacturer.make (normalizeStr s)).name = [] := by
    show normalizeStr (normalizeStr s) = []
    rw [h3]
    rfl
  have hchar : ∀ i (hi : i < mans.length),
      (ltStr (mans.get ⟨i, hi⟩).name [] = true ↔ i < 0) := by
    intro i hi
    simp [ltStr_nil_right]
  have hb : bisect_left mans [] = 0 :=
    bisect_loop_eq mans [] 0 hchar mans.length 0 mans.length (by omega)
      (Nat.zero_le _) (Nat.zero_le _) (le_refl _)
  have h0 : (0 : Nat) < mans.length := List.length_pos.mpr h2
  constructor
  · show checkCandidates mans (normalizeStr s)
      (bisect_left mans (Manufacturer.make (normalizeStr s)).name) = _
    rw [hkey, hb, h3]
    unfold checkCandidates
    rw [if_pos ⟨h0, isSubstr_nil_left _⟩]
  · intro m hm
    obtain ⟨i, hi, rfl⟩ := List.mem_iff_getElem.mp hm
    have hle := sorted_le_get h1 0 i h0 hi (Nat.zero_le i)
    have hgd0 : mans.getD 0 defaultManufacturer = mans.get ⟨0, h0⟩ := by
      rw [List.getD_eq_getElem mans defaultManufacturer h0]
      exact (List.get_eq_getElem mans ⟨0, h0⟩).symm
    rw [hgd0]
    simpa [List.get_eq_getElem] using hle

/-- Witness for C10 at a concrete sorted two-manufacturer catalog. -/
theorem c10_witness :
    resolveManufacturer [sonyM, sonyEM] ("".toList)
      = some ([sonyM, sonyEM].getD 0 defaultManufacturer) :=
  (c10_empty_string_selects_first [sonyM, sonyEM] ("".toList)
    (by decide) (by decide) (by decide)).1

end Matcher
